import Mathlib

/-!
Verification of the inf-rs Windows INF file parser.

The development shallowly embeds the parser from src/lib.rs and
src/types.rs: strings are modelled as lists of characters, the
section map as an association list with HashMap insert/get semantics,
and each Rust method as a Lean function with explicit state passing.
-/

namespace InfRs

/-! ### String model and helpers -/

/-- Strings are modelled as lists of characters. -/
abbrev Str := List Char

/-- Convert a Lean string literal to the character-list model. -/
def chars (s : String) : Str := s.data

/-- The Unicode White_Space property, as used by the Rust trim method. -/
def isRustWhitespace (c : Char) : Bool :=
  c = '\t' || c = '\n' || c.val = 0x0B || c.val = 0x0C || c = '\r' || c = ' ' ||
  c.val = 0x85 || c.val = 0xA0 || c.val = 0x1680 ||
  (0x2000 ≤ c.val && c.val ≤ 0x200A) ||
  c.val = 0x2028 || c.val = 0x2029 || c.val = 0x202F || c.val = 0x205F ||
  c.val = 0x3000

/-- Rust str::trim - drop whitespace from both ends. -/
def trim (s : Str) : Str :=
  ((s.dropWhile isRustWhitespace).reverse.dropWhile isRustWhitespace).reverse

/-- Rust str::starts_with for a single character. -/
def startsWithChar (s : Str) (t : Char) : Bool :=
  match s with
  | [] => false
  | c :: _ => c = t

/-- Rust str::ends_with for a single character. -/
def endsWithChar (s : Str) (t : Char) : Bool :=
  match s.getLast? with
  | some c => c = t
  | none => false

/-- Rust str::find for a single character - index of first occurrence. -/
def findChar (s : Str) (t : Char) : Option Nat :=
  match s with
  | [] => none
  | c :: rest => if c = t then some 0 else (findChar rest t).map (· + 1)

/-- Rust str::split_once for a single character. -/
def splitOnceChar (s : Str) (t : Char) : Option (Str × Str) :=
  match s with
  | [] => none
  | c :: rest =>
    if c = t then some ([], rest)
    else (splitOnceChar rest t).map (fun p => (c :: p.1, p.2))

/-- Count occurrences of a character, as chars().filter(..).count() does. -/
def countChar (s : Str) (t : Char) : Nat :=
  (s.filter (fun c => c = t)).length

/-- Rust slice value[a..b] on the character-list model. -/
def slice (s : Str) (a b : Nat) : Str :=
  (s.take b).drop a

/-- The UTF-8 byte width of a character (Rust char::len_utf8). -/
def utf8Size (c : Char) : Nat :=
  if c.val < 0x80 then 1
  else if c.val < 0x800 then 2
  else if c.val < 0x10000 then 3
  else 4

/-- Rust str::len - the UTF-8 byte length of a string. -/
def utf8Len (s : Str) : Nat :=
  (s.map utf8Size).sum

/-- Rust str::find for a single character, returning the BYTE offset of
the first occurrence, as the Rust method does. -/
def findCharByteIdx (s : Str) (t : Char) : Option Nat :=
  match s with
  | [] => none
  | c :: rest =>
    if c = t then some 0 else (findCharByteIdx rest t).map (· + utf8Size c)

/-- Characters of the prefix spanning the first n bytes. -/
def byteTake : Str → Nat → Str
  | [], _ => []
  | c :: rest, n => if utf8Size c ≤ n then c :: byteTake rest (n - utf8Size c) else []

/-- Characters after the first n bytes. At every call site of the
embedded parser the offset falls on a character boundary, matching the
non-panicking Rust slices. -/
def byteDrop : Str → Nat → Str
  | s, 0 => s
  | [], _ => []
  | c :: rest, n + 1 => byteDrop rest (n + 1 - utf8Size c)

/-- Rust byte-indexed slice s[a..b] on the character-list model. -/
def byteSlice (s : Str) (a b : Nat) : Str :=
  byteDrop (byteTake s b) a

/-! ### Data model (src/types.rs) -/

/-- A value in a Windows INF file (types.rs InfValue). -/
inductive InfValue where
  | CommaSeparated (xs : List Str)
  | Raw (s : Str)
  | list (xs : List Str)
deriving DecidableEq

/-- An entry in a section (types.rs InfEntry). -/
inductive InfEntry where
  | KeyValue (key : Str) (value : Option InfValue)
  | OnlyValue (value : InfValue)
deriving DecidableEq

/-- A section: a name plus ordered entries (types.rs InfSection). -/
structure InfSection where
  name : Str
  entries : List InfEntry
deriving DecidableEq

/-- The section map, modelling HashMap of String to InfSection. -/
abbrev SecMap := List (Str × InfSection)

/-- HashMap::insert - replace the value at an existing key, else add. -/
def mapInsert (k : Str) (v : InfSection) : SecMap → SecMap
  | [] => [(k, v)]
  | (k2, v2) :: rest =>
    if k2 = k then (k, v) :: rest else (k2, v2) :: mapInsert k v rest

/-- HashMap::get - look up a key. -/
def mapGet (k : Str) : SecMap → Option InfSection
  | [] => none
  | (k2, v2) :: rest => if k2 = k then some v2 else mapGet k rest

/-- The get_mut-then-push pattern: append an entry to the section stored
under the given key, a no-op when the key is absent. -/
def pushEntry (k : Str) (e : InfEntry) : SecMap → SecMap
  | [] => []
  | (k2, s) :: rest =>
    if k2 = k then (k2, ⟨s.name, s.entries ++ [e]⟩) :: rest
    else (k2, s) :: pushEntry k e rest

/-! ### LineReader (lib.rs lines 68-127) -/

/-- Error from line assembly (lib.rs LineReaderError). -/
inductive LineReaderError where
  | InvalidCrlf (msg : String)
deriving DecidableEq

/-- The line assembler state (lib.rs LineReader). -/
structure LineReader where
  remaining_string : Str
  lines : List Str
deriving DecidableEq

/-- The character loop of LineReader::read_to_line. The accumulator
found_cr is a local of the Rust method: it is not part of the persistent
state and is discarded when the chunk ends. -/
def read_chars (found_cr : Bool) (new_line : Str) (acc : List Str) :
    Str → Except LineReaderError (List Str × Str)
  | [] => .ok (acc, new_line)
  | c :: rest =>
    if found_cr && !(c = '\n' : Bool) then
      .error (.InvalidCrlf "found \\r but not \\n immediately")
    else if found_cr && (c = '\n' : Bool) then
      read_chars false [] (if new_line.length ≠ 0 then acc ++ [new_line] else acc) rest
    else if c = '\r' then
      read_chars true new_line acc rest
    else if c = '\n' then
      read_chars found_cr [] (if new_line.length ≠ 0 then acc ++ [new_line] else acc) rest
    else
      read_chars found_cr (new_line ++ [c]) acc rest

/-- LineReader::read_to_line - scan remaining_string then the new chunk,
emitting completed lines and buffering the unterminated tail. -/
def read_to_line (lr : LineReader) (line_part : Str) :
    Except LineReaderError LineReader :=
  match read_chars false [] lr.lines (lr.remaining_string ++ line_part) with
  | .ok (ls, rem) => .ok ⟨rem, ls⟩
  | .error e => .error e

/-- LineReader::finalize - the buffered tail becomes one final line. -/
def finalize (lr : LineReader) : LineReader :=
  if lr.remaining_string ≠ [] then
    { lr with lines := lr.lines ++ [lr.remaining_string] }
  else lr

/-- Feed a sequence of decoded chunks through read_to_line. -/
def feed_chunks (lr : LineReader) : List Str → Except LineReaderError LineReader
  | [] => .ok lr
  | c :: cs =>
    match read_to_line lr c with
    | .ok lr2 => feed_chunks lr2 cs
    | .error e => .error e

/-- The line sequence the parse loop hands to the section reader:
feed every chunk, finalize, and collect all emitted lines. -/
def assemble_lines (chunks : List Str) :
    Except LineReaderError (List Str) :=
  match feed_chunks ⟨[], []⟩ chunks with
  | .ok lr => .ok (finalize lr).lines
  | .error e => .error e

/-! ### Section name validation (lib.rs lines 358-391) -/

/-- The character predicate of validate_section_name (lib.rs lines 382-389). -/
def is_invalid_section_char (c : Char) : Bool :=
  if c = '\r' || c = '\n' || c = '"' || c = ' '
      || c = '\t' || c = '[' || c = ']' || c = ';' then true
  else false

/-- lib.rs validate_section_name. -/
def validate_section_name (name : Str) : Except String Unit :=
  if startsWithChar name '"' then
    if !endsWithChar name '"' then
      .error "invalid quoted section name"
    else if name.contains ']' then
      .error "invalid ] in the quoted section name"
    else .ok ()
  else
    if endsWithChar name '\\' then
      .error "invalid \\ at the end of section name"
    else if countChar name '%' % 2 ≠ 0 then
      .error "odd number of % in the section name, expected pairs"
    else
      match name.find? is_invalid_section_char with
      | some _ => .error "contains invalid chars in unquoted section name"
      | none => .ok ()

/-! ### SectionReader (lib.rs lines 129-259) -/

/-- Errors from section parsing (lib.rs SectionReaderError). -/
inductive SectionReaderError where
  | InvalidSectionName (msg : String)
  | InvalidQuotedValue (msg : String)
  | InvalidContinuation (msg : String)
deriving DecidableEq

/-- The section parser state (lib.rs SectionReader). -/
structure SectionReader where
  last_section_name : Str
  last_entry_key : Str
  last_entry_value_contd : Str
deriving DecidableEq

/-- Quoted value handling (lib.rs lines 166-201). The Rust code mixes
index spaces: end_double_quote_idx comes from value[1..].find, a BYTE
offset, and feeds the byte-length guard value.len() - 1 and the byte
slices value[1..end_double_quote_idx], but the probe
value.chars().nth(end_double_quote_idx + 1) counts CHARACTERS, so for
a non-ASCII quoted interior the probed position is past the character
right after the closing quote. The model reproduces this mix. -/
def read_quoted (sr : SectionReader) (key value : Str) (sections : SecMap) :
    Except SectionReaderError (SectionReader × SecMap) :=
  match findCharByteIdx (value.drop 1) '"' with
  | none => .error (.InvalidQuotedValue "no ending double quote found")
  | some idx =>
    let endIdx := idx + 1
    let commit : Except SectionReaderError (SectionReader × SecMap) :=
      .ok ({ sr with last_entry_value_contd := [] },
           pushEntry sr.last_section_name
             (.KeyValue key (some (.Raw (byteSlice value 1 endIdx)))) sections)
    if utf8Len value - 1 > endIdx then
      match value.get? (endIdx + 1) with
      | some c =>
        if c = '\\' then
          .ok ({ sr with last_entry_key := key, last_entry_value_contd := byteSlice value 1 endIdx }, sections)
        else if c ≠ ';' then
          .error (.InvalidContinuation "no continuation char found after ending double quote")
        else commit
      | none => commit
    else commit

/-- Comment truncation for unquoted values (lib.rs lines 207-209). -/
def truncate_comment (value : Str) : Str :=
  match splitOnceChar value ';' with
  | some (first, _) => trim first
  | none => value

/-- Unquoted value handling (lib.rs lines 203-233). -/
def read_unquoted (sr : SectionReader) (key value0 : Str) (sections : SecMap) :
    Except SectionReaderError (SectionReader × SecMap) :=
  let value := truncate_comment value0
  if endsWithChar value '\\' then
    match findChar value '\\' with
    | some i =>
      if i > 0 then
        .ok ({ sr with last_entry_value_contd := value.take i, last_entry_key := key }, sections)
      else
        .ok ({ sr with last_entry_value_contd := [], last_entry_key := [] }, sections)
    | none => .ok (sr, sections)
  else
    .ok ({ sr with last_entry_value_contd := [], last_entry_key := [] },
         pushEntry sr.last_section_name
           (.KeyValue key (some (.Raw value))) sections)

/-- Bare line handling, no equals sign (lib.rs lines 236-255). -/
def read_bare (sr : SectionReader) (line : Str) (sections : SecMap) :
    Except SectionReaderError (SectionReader × SecMap) :=
  let value := trim line
  if sr.last_entry_value_contd ≠ [] then
    .ok ({ sr with last_entry_value_contd := [], last_entry_key := [] },
         pushEntry sr.last_section_name
           (.KeyValue sr.last_entry_key
             (some (.Raw (sr.last_entry_value_contd ++ value)))) sections)
  else
    .ok (sr, pushEntry sr.last_section_name (.OnlyValue (.Raw value)) sections)

/-- lib.rs SectionReader::read_section - process one logical line. -/
def read_section (sr : SectionReader) (line0 : Str) (sections : SecMap) :
    Except SectionReaderError (SectionReader × SecMap) :=
  let line := trim line0
  if startsWithChar line ';' then
    .ok (sr, sections)
  else if startsWithChar line '[' && endsWithChar line ']' then
    let section_name := slice line 1 (line.length - 1)
    match validate_section_name section_name with
    | .error e => .error (.InvalidSectionName e)
    | .ok _ =>
      .ok ({ sr with last_section_name := section_name },
           mapInsert section_name ⟨section_name, []⟩ sections)
  else if sr.last_section_name ≠ [] then
    match splitOnceChar line '=' with
    | some (k0, v0) =>
      let key := trim k0
      let value := trim v0
      if startsWithChar value '"' then read_quoted sr key value sections
      else read_unquoted sr key value sections
    | none => read_bare sr line sections
  else
    .ok (sr, sections)

/-- The parse loop over logical lines (lib.rs lines 331-343). -/
def run_lines (sr : SectionReader) (secs : SecMap) :
    List Str → Except SectionReaderError (SectionReader × SecMap)
  | [] => .ok (sr, secs)
  | l :: ls =>
    match read_section sr l secs with
    | .ok (sr2, secs2) => run_lines sr2 secs2 ls
    | .error e => .error e

/-! ### Encoding selection (lib.rs lines 293-329) -/

/-- The encodings the BOM sniffer can report. -/
inductive EncName where
  | utf8
  | utf16be
  | utf16le
deriving DecidableEq

/-- encoding_rs Encoding::for_bom - detect a byte-order mark at the
start of a byte slice. -/
def for_bom : List Nat → Option EncName
  | 0xEF :: 0xBB :: 0xBF :: _ => some .utf8
  | 0xFF :: 0xFE :: _ => some .utf16le
  | 0xFE :: 0xFF :: _ => some .utf16be
  | _ => none

/-- The encoding the parse loop uses for each chunk: bom_detected is
or-accumulated from a BOM check run on every chunk, and a chunk is
decoded as UTF-16LE exactly when bom_detected holds after its check
(lib.rs lines 294, 309-329). -/
def chunk_encodings (bom_detected : Bool) : List (List Nat) → List EncName
  | [] => []
  | c :: cs =>
    let bd := bom_detected || (for_bom c).isSome
    (if bd then EncName.utf16le else EncName.utf8) :: chunk_encodings bd cs

/-! ### Invariant predicates -/

/-- A KeyValue entry carries a present value. -/
def entryHasValue : InfEntry → Bool
  | .KeyValue _ v => v.isSome
  | .OnlyValue _ => true

/-- Every KeyValue entry in the document has a present value. -/
def docValuesPresent (m : SecMap) : Bool :=
  m.all (fun p => p.2.entries.all entryHasValue)

/-- Every section is stored under its own name. -/
def docNamesCoherent (m : SecMap) : Bool :=
  m.all (fun p => p.2.name = p.1)

/-- Modelled from the spec (section-name validation rules, for the
refinement claim): a quoted name must end with a quote and contain no
closing bracket; an unquoted name must not end in backslash, must have
an even count of percent characters, and must avoid the fixed character
set CR, LF, quote, space, tab, brackets and semicolon. -/
def spec_section_name_ok (name : Str) : Bool :=
  if startsWithChar name '"' then
    endsWithChar name '"' && !(name.contains ']')
  else
    !(endsWithChar name '\\') &&
    (countChar name '%' % 2 == 0) &&
    !(name.any (fun c =>
        c = '\r' || c = '\n' || c = '"' || c = ' '
          || c = '\t' || c = '[' || c = ']' || c = ';'))

/-- Decidable equality for results, so that concrete runs of the
embedded parser can be checked by evaluation. -/
instance instDecEqExcept {ε α : Type} [DecidableEq ε] [DecidableEq α] :
    DecidableEq (Except ε α) := fun a b =>
  match a, b with
  | .error e1, .error e2 =>
    match decEq e1 e2 with
    | isTrue h => isTrue (by rw [h])
    | isFalse h => isFalse (by intro hc; injection hc; contradiction)
  | .error _, .ok _ => isFalse (by intro hc; cases hc)
  | .ok _, .error _ => isFalse (by intro hc; cases hc)
  | .ok v1, .ok v2 =>
    match decEq v1 v2 with
    | isTrue h => isTrue (by rw [h])
    | isFalse h => isFalse (by intro hc; injection hc; contradiction)

/-! ### Helper lemmas -/

lemma dropWhile_head?_false (p : Char → Bool) (l : Str) :
    ∀ c, (l.dropWhile p).head? = some c → p c = false := by
  induction l with
  | nil => simp
  | cons a t ih =>
    intro c hc
    cases h : p a with
    | true => rw [List.dropWhile_cons, if_pos h] at hc; exact ih c hc
    | false =>
      rw [List.dropWhile_cons, if_neg (by simp [h])] at hc
      simp only [List.head?_cons, Option.some.injEq] at hc
      rw [← hc]; exact h

lemma dropWhile_eq_self_of_head? (p : Char → Bool) (l : Str)
    (h : ∀ c, l.head? = some c → p c = false) : l.dropWhile p = l := by
  cases l with
  | nil => rfl
  | cons a t => rw [List.dropWhile_cons, if_neg (by simp [h a rfl])]

lemma getLast?_dropWhile (p : Char → Bool) (l : Str)
    (h : l.dropWhile p ≠ []) : (l.dropWhile p).getLast? = l.getLast? := by
  induction l with
  | nil => simp at h
  | cons a t ih =>
    cases hp : p a with
    | true =>
      rw [List.dropWhile_cons, if_pos hp] at h ⊢
      cases t with
      | nil => simp at h
      | cons b t2 => rw [List.getLast?_cons_cons]; exact ih h
    | false => rw [List.dropWhile_cons, if_neg (by simp [hp])]

lemma trim_head?_false (s : Str) :
    ∀ c, (trim s).head? = some c → isRustWhitespace c = false := by
  intro c hc
  unfold trim at hc
  rw [List.head?_reverse] at hc
  by_cases hB : (s.dropWhile isRustWhitespace).reverse.dropWhile isRustWhitespace = []
  · rw [hB] at hc; cases hc
  · rw [getLast?_dropWhile _ _ hB, List.getLast?_reverse] at hc
    exact dropWhile_head?_false isRustWhitespace s c hc

lemma trim_getLast?_false (s : Str) :
    ∀ c, (trim s).getLast? = some c → isRustWhitespace c = false := by
  intro c hc
  unfold trim at hc
  rw [List.getLast?_reverse] at hc
  exact dropWhile_head?_false isRustWhitespace _ c hc

lemma trim_idem (s : Str) : trim (trim s) = trim s := by
  conv_lhs => rw [trim]
  rw [dropWhile_eq_self_of_head? _ _ (trim_head?_false s)]
  rw [dropWhile_eq_self_of_head? _ _ ?hrev, List.reverse_reverse]
  intro c hc
  rw [List.head?_reverse] at hc
  exact trim_getLast?_false s c hc

lemma find?_eq_none_iff_any (p : Char → Bool) (l : List Char) :
    (l.find? p = none) ↔ l.any p = false := by
  induction l with
  | nil => simp
  | cons a t ih =>
    cases h : p a <;> simp [List.find?_cons, h, ih]

lemma utf8Size_pos (c : Char) : 0 < utf8Size c := by
  unfold utf8Size
  split_ifs <;> omega

lemma length_le_utf8Len (s : Str) : s.length ≤ utf8Len s := by
  induction s with
  | nil => simp [utf8Len]
  | cons c t ih =>
    have hc := utf8Size_pos c
    simp only [utf8Len, List.map_cons, List.sum_cons, List.length_cons]
    simp only [utf8Len] at ih
    omega

lemma get?_some_lt {l : Str} {n : Nat} {c : Char} (h : l.get? n = some c) :
    n < l.length := by
  by_contra hc
  push_neg at hc
  rw [List.get?_eq_none.mpr hc] at h
  cases h

lemma mapGet_pushEntry_self (k : Str) (e : InfEntry) (m : SecMap) :
    mapGet k (pushEntry k e m) =
      (mapGet k m).map (fun s => ⟨s.name, s.entries ++ [e]⟩) := by
  induction m with
  | nil => simp [mapGet, pushEntry]
  | cons p rest ih =>
    obtain ⟨k2, s⟩ := p
    by_cases hk : k2 = k <;> simp [mapGet, pushEntry, hk, ih]

lemma docValuesPresent_cons (k : Str) (s : InfSection) (rest : SecMap) :
    docValuesPresent ((k, s) :: rest) =
      (s.entries.all entryHasValue && docValuesPresent rest) := by
  simp [docValuesPresent]

lemma docValuesPresent_mapInsert (n : Str) (m : SecMap)
    (h : docValuesPresent m = true) :
    docValuesPresent (mapInsert n ⟨n, []⟩ m) = true := by
  induction m with
  | nil => simp [mapInsert, docValuesPresent]
  | cons p rest ih =>
    obtain ⟨k2, s⟩ := p
    rw [docValuesPresent_cons, Bool.and_eq_true] at h
    show docValuesPresent (if k2 = n then _ else _) = true
    by_cases hk : k2 = n
    · rw [if_pos hk, docValuesPresent_cons]
      simp [h.2]
    · rw [if_neg hk, docValuesPresent_cons, Bool.and_eq_true]
      exact ⟨h.1, ih h.2⟩

lemma docValuesPresent_pushEntry (n : Str) (e : InfEntry) (m : SecMap)
    (h : docValuesPresent m = true) (he : entryHasValue e = true) :
    docValuesPresent (pushEntry n e m) = true := by
  induction m with
  | nil => simp [pushEntry, docValuesPresent]
  | cons p rest ih =>
    obtain ⟨k2, s⟩ := p
    rw [docValuesPresent_cons, Bool.and_eq_true] at h
    show docValuesPresent (if k2 = n then _ else _) = true
    by_cases hk : k2 = n
    · rw [if_pos hk, docValuesPresent_cons, Bool.and_eq_true]
      exact ⟨by simp [List.all_append, h.1, he], h.2⟩
    · rw [if_neg hk, docValuesPresent_cons, Bool.and_eq_true]
      exact ⟨h.1, ih h.2⟩

lemma docNamesCoherent_cons (k : Str) (s : InfSection) (rest : SecMap) :
    docNamesCoherent ((k, s) :: rest) =
      (decide (s.name = k) && docNamesCoherent rest) := by
  simp [docNamesCoherent]

lemma docNamesCoherent_mapInsert (n : Str) (m : SecMap)
    (h : docNamesCoherent m = true) :
    docNamesCoherent (mapInsert n ⟨n, []⟩ m) = true := by
  induction m with
  | nil => simp [mapInsert, docNamesCoherent]
  | cons p rest ih =>
    obtain ⟨k2, s⟩ := p
    rw [docNamesCoherent_cons, Bool.and_eq_true] at h
    show docNamesCoherent (if k2 = n then _ else _) = true
    by_cases hk : k2 = n
    · rw [if_pos hk, docNamesCoherent_cons]
      simp [h.2]
    · rw [if_neg hk, docNamesCoherent_cons, Bool.and_eq_true]
      exact ⟨h.1, ih h.2⟩

lemma docNamesCoherent_pushEntry (n : Str) (e : InfEntry) (m : SecMap)
    (h : docNamesCoherent m = true) :
    docNamesCoherent (pushEntry n e m) = true := by
  induction m with
  | nil => simp [pushEntry, docNamesCoherent]
  | cons p rest ih =>
    obtain ⟨k2, s⟩ := p
    rw [docNamesCoherent_cons, Bool.and_eq_true] at h
    show docNamesCoherent (if k2 = n then _ else _) = true
    by_cases hk : k2 = n
    · rw [if_pos hk, docNamesCoherent_cons, Bool.and_eq_true]
      exact ⟨h.1, h.2⟩
    · rw [if_neg hk, docNamesCoherent_cons, Bool.and_eq_true]
      exact ⟨h.1, ih h.2⟩

lemma read_quoted_shape (sr : SectionReader) (key value : Str) (secs : SecMap)
    (sr2 : SectionReader) (secs2 : SecMap)
    (h : read_quoted sr key value secs = .ok (sr2, secs2)) :
    secs2 = secs ∨
      (∃ n k v, secs2 = pushEntry n (.KeyValue k (some v)) secs) := by
  simp only [read_quoted] at h
  split at h
  · simp at h
  · split at h
    · split at h
      · split at h
        · simp only [Except.ok.injEq, Prod.mk.injEq] at h
          exact Or.inl h.2.symm
        · split at h
          · simp at h
          · simp only [Except.ok.injEq, Prod.mk.injEq] at h
            exact Or.inr ⟨_, _, _, h.2.symm⟩
      · simp only [Except.ok.injEq, Prod.mk.injEq] at h
        exact Or.inr ⟨_, _, _, h.2.symm⟩
    · simp only [Except.ok.injEq, Prod.mk.injEq] at h
      exact Or.inr ⟨_, _, _, h.2.symm⟩

lemma read_unquoted_shape (sr : SectionReader) (key value0 : Str) (secs : SecMap)
    (sr2 : SectionReader) (secs2 : SecMap)
    (h : read_unquoted sr key value0 secs = .ok (sr2, secs2)) :
    secs2 = secs ∨
      (∃ n k v, secs2 = pushEntry n (.KeyValue k (some v)) secs) := by
  simp only [read_unquoted] at h
  split at h
  · split at h
    · split at h
      · simp only [Except.ok.injEq, Prod.mk.injEq] at h
        exact Or.inl h.2.symm
      · simp only [Except.ok.injEq, Prod.mk.injEq] at h
        exact Or.inl h.2.symm
    · simp only [Except.ok.injEq, Prod.mk.injEq] at h
      exact Or.inl h.2.symm
  · simp only [Except.ok.injEq, Prod.mk.injEq] at h
    exact Or.inr ⟨_, _, _, h.2.symm⟩

lemma read_bare_shape (sr : SectionReader) (line : Str) (secs : SecMap)
    (sr2 : SectionReader) (secs2 : SecMap)
    (h : read_bare sr line secs = .ok (sr2, secs2)) :
    (∃ n k v, secs2 = pushEntry n (.KeyValue k (some v)) secs) ∨
      (∃ n v, secs2 = pushEntry n (.OnlyValue v) secs) := by
  simp only [read_bare] at h
  split at h
  · simp only [Except.ok.injEq, Prod.mk.injEq] at h
    exact Or.inl ⟨_, _, _, h.2.symm⟩
  · simp only [Except.ok.injEq, Prod.mk.injEq] at h
    exact Or.inr ⟨_, _, h.2.symm⟩

lemma read_section_shape (sr : SectionReader) (line : Str) (secs : SecMap)
    (sr2 : SectionReader) (secs2 : SecMap)
    (h : read_section sr line secs = .ok (sr2, secs2)) :
    secs2 = secs ∨ (∃ n, secs2 = mapInsert n ⟨n, []⟩ secs) ∨
      (∃ n k v, secs2 = pushEntry n (.KeyValue k (some v)) secs) ∨
      (∃ n v, secs2 = pushEntry n (.OnlyValue v) secs) := by
  simp only [read_section] at h
  split at h
  · simp only [Except.ok.injEq, Prod.mk.injEq] at h
    exact Or.inl h.2.symm
  · split at h
    · split at h
      · simp at h
      · simp only [Except.ok.injEq, Prod.mk.injEq] at h
        exact Or.inr (Or.inl ⟨_, h.2.symm⟩)
    · split at h
      · split at h
        · split at h
          · rcases read_quoted_shape _ _ _ _ _ _ h with h1 | ⟨n, k, v, h1⟩
            · exact Or.inl h1
            · exact Or.inr (Or.inr (Or.inl ⟨n, k, v, h1⟩))
          · rcases read_unquoted_shape _ _ _ _ _ _ h with h1 | ⟨n, k, v, h1⟩
            · exact Or.inl h1
            · exact Or.inr (Or.inr (Or.inl ⟨n, k, v, h1⟩))
        · rcases read_bare_shape _ _ _ _ _ h with ⟨n, k, v, h1⟩ | ⟨n, v, h1⟩
          · exact Or.inr (Or.inr (Or.inl ⟨n, k, v, h1⟩))
          · exact Or.inr (Or.inr (Or.inr ⟨n, v, h1⟩))
      · simp only [Except.ok.injEq, Prod.mk.injEq] at h
        exact Or.inl h.2.symm

lemma read_section_preserves_values (sr : SectionReader) (line : Str)
    (secs : SecMap) (sr2 : SectionReader) (secs2 : SecMap)
    (h : docValuesPresent secs = true)
    (hr : read_section sr line secs = .ok (sr2, secs2)) :
    docValuesPresent secs2 = true := by
  rcases read_section_shape _ _ _ _ _ hr with h1 | ⟨n, h1⟩ | ⟨n, k, v, h1⟩ | ⟨n, v, h1⟩ <;>
    subst h1
  · exact h
  · exact docValuesPresent_mapInsert n secs h
  · exact docValuesPresent_pushEntry n _ secs h (by simp [entryHasValue])
  · exact docValuesPresent_pushEntry n _ secs h (by simp [entryHasValue])

lemma read_section_preserves_names (sr : SectionReader) (line : Str)
    (secs : SecMap) (sr2 : SectionReader) (secs2 : SecMap)
    (h : docNamesCoherent secs = true)
    (hr : read_section sr line secs = .ok (sr2, secs2)) :
    docNamesCoherent secs2 = true := by
  rcases read_section_shape _ _ _ _ _ hr with h1 | ⟨n, h1⟩ | ⟨n, k, v, h1⟩ | ⟨n, v, h1⟩ <;>
    subst h1
  · exact h
  · exact docNamesCoherent_mapInsert n secs h
  · exact docNamesCoherent_pushEntry n _ secs h
  · exact docNamesCoherent_pushEntry n _ secs h

lemma run_lines_preserves_values (lines : List Str) :
    ∀ (sr : SectionReader) (secs : SecMap) (sr2 : SectionReader) (secs2 : SecMap),
    docValuesPresent secs = true →
    run_lines sr secs lines = .ok (sr2, secs2) →
    docValuesPresent secs2 = true := by
  induction lines with
  | nil =>
    intro sr secs sr2 secs2 h hr
    simp only [run_lines, Except.ok.injEq, Prod.mk.injEq] at hr
    rw [← hr.2]; exact h
  | cons l ls ih =>
    intro sr secs sr2 secs2 h hr
    simp only [run_lines] at hr
    split at hr
    · next sr1 secs1 heq =>
      exact ih _ _ _ _ (read_section_preserves_values _ _ _ _ _ h heq) hr
    · simp at hr

lemma run_lines_preserves_names (lines : List Str) :
    ∀ (sr : SectionReader) (secs : SecMap) (sr2 : SectionReader) (secs2 : SecMap),
    docNamesCoherent secs = true →
    run_lines sr secs lines = .ok (sr2, secs2) →
    docNamesCoherent secs2 = true := by
  induction lines with
  | nil =>
    intro sr secs sr2 secs2 h hr
    simp only [run_lines, Except.ok.injEq, Prod.mk.injEq] at hr
    rw [← hr.2]; exact h
  | cons l ls ih =>
    intro sr secs sr2 secs2 h hr
    simp only [run_lines] at hr
    split at hr
    · next sr1 secs1 heq =>
      exact ih _ _ _ _ (read_section_preserves_names _ _ _ _ _ h heq) hr
    · simp at hr

lemma any_congr_chars (p q : Char → Bool) (l : Str) (h : ∀ a, p a = q a) :
    l.any p = l.any q := by
  induction l with
  | nil => rfl
  | cons a t ih => simp [List.any_cons, h a, ih]

lemma is_invalid_section_char_eq (c : Char) :
    is_invalid_section_char c =
      (c = '\r' || c = '\n' || c = '"' || c = ' '
        || c = '\t' || c = '[' || c = ']' || c = ';') := by
  simp [is_invalid_section_char]

lemma validate_ok_iff_spec (name : Str) :
    validate_section_name name = .ok () ↔ spec_section_name_ok name = true := by
  unfold validate_section_name spec_section_name_ok
  by_cases h1 : startsWithChar name '"' = true
  · simp only [h1, if_true]
    by_cases h2 : endsWithChar name '"' = true
    · by_cases h3 : name.contains ']' = true <;> simp [h2, h3]
    · simp only [Bool.not_eq_true] at h2
      simp [h2]
  · simp only [Bool.not_eq_true] at h1
    simp only [h1, Bool.false_eq_true, if_false]
    by_cases h2 : endsWithChar name '\\' = true
    · simp [h2]
    · simp only [Bool.not_eq_true] at h2
      by_cases h3 : countChar name '%' % 2 = 0
      · have hbr : name.any (fun c => c = '\r' || c = '\n' || c = '"' || c = ' '
            || c = '\t' || c = '[' || c = ']' || c = ';') =
            name.any is_invalid_section_char := by
          exact any_congr_chars _ _ name (fun a => (is_invalid_section_char_eq a).symm)
        cases h4 : name.find? is_invalid_section_char with
        | some c =>
          have : name.any is_invalid_section_char = true := by
            by_contra hc
            simp only [Bool.not_eq_true] at hc
            rw [← find?_eq_none_iff_any] at hc
            rw [hc] at h4; cases h4
          simp [h2, h3, hbr, this]
        | none =>
          have : name.any is_invalid_section_char = false :=
            (find?_eq_none_iff_any _ _).mp h4
          simp [h2, h3, hbr, this]
      · have hv : (countChar name '%' % 2 == 0) = false := by
          simp only [beq_eq_false_iff_ne, ne_eq]
          exact h3
        rw [if_pos h3]
        simp [hv, h2]

lemma read_section_entry_eq (sr : SectionReader) (line : Str) (secs : SecMap)
    (hsec : sr.last_section_name ≠ [])
    (hcom : startsWithChar (trim line) ';' = false)
    (hhdr : (startsWithChar (trim line) '[' && endsWithChar (trim line) ']') = false) :
    read_section sr line secs =
      match splitOnceChar (trim line) '=' with
      | some (k0, v0) =>
        if startsWithChar (trim v0) '"' then read_quoted sr (trim k0) (trim v0) secs
        else read_unquoted sr (trim k0) (trim v0) secs
      | none => read_bare sr (trim line) secs := by
  unfold read_section
  rw [if_neg (by simp [hcom]), if_neg (by simp [hhdr]), if_pos hsec]

/-! ### Claim theorems -/

/-- C1 (code bug): chunk-boundary independence fails. The same text, a
lowercase a, then CR, then b, is rejected with InvalidCrlf when fed in
one piece, but when split right after the CR the carriage return is
silently dropped and the line ab is produced: the found_cr flag of
read_to_line is a local that is not carried across chunks. -/
theorem inf_c1_chunk_boundary_dependence :
    assemble_lines [chars "a\rb"] =
      .error (.InvalidCrlf "found \\r but not \\n immediately") ∧
    assemble_lines [chars "a\r", chars "b"] = .ok [chars "ab"] ∧
    chars "a\r" ++ chars "b" = chars "a\rb" := by
  decide

/-- C5 (code bug): encoding selection is not determined by the first
chunk alone, and not only by a UTF-16LE byte-order mark. A UTF-8 BOM on
the first chunk switches the whole stream to UTF-16LE decoding, and a
BOM-shaped prefix on a later chunk switches decoding mid-stream, because
the parse loop runs the BOM sniff on every chunk and only tests whether
some BOM was seen. -/
theorem inf_c5_bom_selection :
    chunk_encodings false [[0xEF, 0xBB, 0xBF, 0x41]] = [EncName.utf16le] ∧
    chunk_encodings false [[0x41], [0xFF, 0xFE, 0x42]] =
      [EncName.utf8, EncName.utf16le] := by
  decide

/-- C6 (code bug): a CR that ends a chunk does not make the parse fail.
Hello then CR as one chunk followed by World is accepted and yields the
single line HelloWorld, the CR being dropped, while the same stream in
one chunk is rejected with InvalidCrlf as the claim demands. -/
theorem inf_c6_lone_cr_chunk_end :
    assemble_lines [chars "Hello\r", chars "World"] =
      .ok [chars "HelloWorld"] ∧
    assemble_lines [chars "Hello\rWorld"] =
      .error (.InvalidCrlf "found \\r but not \\n immediately") := by
  decide

/-- C9: every KeyValue entry committed by a full parse run carries a
present value; parsing never produces a keyed entry whose optional
value is none. -/
theorem inf_c9_keyvalue_always_some (lines : List Str)
    (sr2 : SectionReader) (secs2 : SecMap)
    (h : run_lines ⟨[], [], []⟩ [] lines = .ok (sr2, secs2)) :
    docValuesPresent secs2 = true :=
  run_lines_preserves_values lines ⟨[], [], []⟩ [] sr2 secs2 rfl h

/-- Witness for C9 at the concrete run over a section header and one
key-value line. -/
theorem inf_c9_witness :
    docValuesPresent [(chars "S", ⟨chars "S",
      [InfEntry.KeyValue (chars "k") (some (InfValue.Raw (chars "v")))]⟩)] = true :=
  inf_c9_keyvalue_always_some [chars "[S]", chars "k=v"]
    ⟨chars "S", [], []⟩ _ (by decide)

/-- C10: after any sequence of parser steps starting from a document in
which every section is stored under its own name, every section is still
stored under its own name; no step breaks key and name coherence. -/
theorem inf_c10_name_key_coherence (sr : SectionReader) (secs : SecMap)
    (lines : List Str) (sr2 : SectionReader) (secs2 : SecMap)
    (h0 : docNamesCoherent secs = true)
    (h : run_lines sr secs lines = .ok (sr2, secs2)) :
    docNamesCoherent secs2 = true :=
  run_lines_preserves_names lines sr secs sr2 secs2 h0 h

/-- Witness for C10 at a concrete run creating one section. -/
theorem inf_c10_witness :
    docNamesCoherent [(chars "A", ⟨chars "A", []⟩)] = true :=
  inf_c10_name_key_coherence ⟨[], [], []⟩ [] [chars "[A]"]
    ⟨chars "A", [], []⟩ _ (by decide) (by decide)

/-- C8: section-name validation accepts exactly the names allowed by
the stated rules, and a header whose interior violates them aborts with
InvalidSectionName. -/
theorem inf_c8_section_name_validation :
    (∀ name : Str,
      validate_section_name name = .ok () ↔ spec_section_name_ok name = true) ∧
    (∀ (sr : SectionReader) (secs : SecMap) (line : Str),
      startsWithChar (trim line) ';' = false →
      (startsWithChar (trim line) '[' && endsWithChar (trim line) ']') = true →
      spec_section_name_ok (slice (trim line) 1 ((trim line).length - 1)) = false →
      ∃ m, read_section sr line secs = .error (.InvalidSectionName m)) := by
  constructor
  · exact validate_ok_iff_spec
  · intro sr secs line hcom hhdr hspec
    cases hv : validate_section_name (slice (trim line) 1 ((trim line).length - 1)) with
    | ok u =>
      cases u
      rw [validate_ok_iff_spec] at hv
      rw [hv] at hspec
      cases hspec
    | error m =>
      refine ⟨m, ?_⟩
      simp only [read_section]
      rw [if_neg (by simp [hcom]), if_pos (by simp [hhdr]), hv]

/-- Witness for C8: a header with an embedded space is rejected. -/
theorem inf_c8_witness :
    ∃ m, read_section ⟨[], [], []⟩ (chars "[a b]") [] =
      .error (.InvalidSectionName m) :=
  inf_c8_section_name_validation.2 ⟨[], [], []⟩ [] (chars "[a b]")
    (by decide) (by decide) (by decide)

/-- C4 counterexample: a continuation left pending before a section
header is committed into the new section. After the header for B the
pending value v of key k is completed by the bare line w and lands in
section B, so the continuation slot is not cleared by the header. -/
theorem inf_c4_counterexample :
    run_lines ⟨[], [], []⟩ []
        [chars "[A]", chars "k=v\\", chars "[B]", chars "w"] =
      .ok (⟨chars "B", [], []⟩,
        [(chars "A", ⟨chars "A", []⟩),
         (chars "B", ⟨chars "B",
           [InfEntry.KeyValue (chars "k") (some (InfValue.Raw (chars "vw")))]⟩)]) := by
  decide

/-- C4 (amended): a valid section header creates a fresh empty section
under its name, replacing any prior one, and sets the current section,
but it leaves the continuation slot of the parser state unchanged. -/
theorem inf_c4_section_header_amended (sr : SectionReader) (secs : SecMap)
    (line : Str)
    (hcom : startsWithChar (trim line) ';' = false)
    (hhdr : (startsWithChar (trim line) '[' && endsWithChar (trim line) ']') = true)
    (hval : validate_section_name (slice (trim line) 1 ((trim line).length - 1)) =
      .ok ()) :
    read_section sr line secs =
      .ok ({ sr with last_section_name := slice (trim line) 1 ((trim line).length - 1) },
        mapInsert (slice (trim line) 1 ((trim line).length - 1))
          ⟨slice (trim line) 1 ((trim line).length - 1), []⟩ secs) := by
  simp only [read_section]
  rw [if_neg (by simp [hcom]), if_pos (by simp [hhdr]), hval]

/-- Witness for C4 amended: the header for B keeps the pending key k and
partial value v in the parser state. -/
theorem inf_c4_witness :
    read_section ⟨chars "A", chars "k", chars "v"⟩ (chars "[B]")
        [(chars "A", ⟨chars "A", []⟩)] =
      .ok (⟨chars "B", chars "k", chars "v"⟩,
        [(chars "A", ⟨chars "A", []⟩), (chars "B", ⟨chars "B", []⟩)]) :=
  inf_c4_section_header_amended ⟨chars "A", chars "k", chars "v"⟩
    [(chars "A", ⟨chars "A", []⟩)] (chars "[B]") (by decide) (by decide) (by decide)

/-- C2 counterexample: for the value with a backslash in the middle and
one at the end, the kept prefix is the content before the first
backslash anywhere in the value, not the content before the trailing
run: the pending partial value is a, not a backslash b. -/
theorem inf_c2_counterexample :
    read_section ⟨chars "S", [], []⟩ (chars "k=a\\b\\")
        [(chars "S", ⟨chars "S", []⟩)] =
      .ok (⟨chars "S", chars "k", chars "a"⟩, [(chars "S", ⟨chars "S", []⟩)]) ∧
    chars "a" ≠ chars "a\\b" := by
  decide

/-- C2 (amended): for an unquoted value that, after comment truncation
and re-trimming, ends with a backslash, the parser keeps the content
before the first backslash anywhere in the value: when that prefix is
non-empty it stores Pending(key, prefix) and commits nothing, and when
the value starts with a backslash it clears the continuation slot and
commits nothing. -/
theorem inf_c2_unquoted_continuation_amended (sr : SectionReader) (secs : SecMap)
    (line k0 v0 value1 : Str) (i : Nat)
    (hsec : sr.last_section_name ≠ [])
    (hcom : startsWithChar (trim line) ';' = false)
    (hhdr : (startsWithChar (trim line) '[' && endsWithChar (trim line) ']') = false)
    (hsplit : splitOnceChar (trim line) '=' = some (k0, v0))
    (hq : startsWithChar (trim v0) '"' = false)
    (htr : truncate_comment (trim v0) = value1)
    (hend : endsWithChar value1 '\\' = true)
    (hfind : findChar value1 '\\' = some i) :
    (0 < i → read_section sr line secs =
      .ok ({ sr with last_entry_value_contd := value1.take i, last_entry_key := trim k0 },
        secs)) ∧
    (i = 0 → read_section sr line secs =
      .ok ({ sr with last_entry_value_contd := [], last_entry_key := [] }, secs)) := by
  have hred : read_section sr line secs = read_unquoted sr (trim k0) (trim v0) secs := by
    rw [read_section_entry_eq sr line secs hsec hcom hhdr]
    simp only [hsplit]
    rw [if_neg (by simp [hq])]
  constructor
  · intro hi
    rw [hred]
    unfold read_unquoted
    simp only [htr]
    rw [if_pos hend, hfind]
    simp only []
    rw [if_pos hi]
  · intro hi
    subst hi
    rw [hred]
    unfold read_unquoted
    simp only [htr]
    rw [if_pos hend, hfind]
    simp only []
    rw [if_neg (by omega)]

/-- Witness for C2 amended at key a and value x backslash y backslash:
the kept prefix is x. -/
theorem inf_c2_witness :
    read_section ⟨chars "T", [], []⟩ (chars "a=x\\y\\")
        [(chars "T", ⟨chars "T", []⟩)] =
      .ok (⟨chars "T", chars "a", chars "x"⟩, [(chars "T", ⟨chars "T", []⟩)]) :=
  (inf_c2_unquoted_continuation_amended ⟨chars "T", [], []⟩
    [(chars "T", ⟨chars "T", []⟩)] (chars "a=x\\y\\") (chars "a") (chars "x\\y\\")
    (chars "x\\y\\") 1 (by decide) (by decide) (by decide) (by decide) (by decide)
    (by decide) (by decide) (by decide)).1 (by decide)

/-- C3 counterexample, one concrete input per divergence from the
claim. First, for a quoted value followed by a single backslash the
stored pending partial is the text between the quotes with no
backslash appended: abc, not abc backslash. Second, a space before a
trailing comment is rejected with InvalidContinuation where the claim
says commit. Third, a backslash with further characters after it still
pends where the claim says only an exactly single backslash does.
Fourth, for a non-ASCII quoted interior followed by a stray character
the parser commits where the claim says InvalidContinuation: the probe
position is the byte offset of the closing quote used as a character
index, which for a two-byte e-acute lands past the end of the value. -/
theorem inf_c3_counterexample :
    (read_section ⟨chars "S", [], []⟩ (chars "k=\"abc\"\\")
        [(chars "S", ⟨chars "S", []⟩)] =
      .ok (⟨chars "S", chars "k", chars "abc"⟩, [(chars "S", ⟨chars "S", []⟩)]) ∧
      chars "abc" ≠ chars "abc\\") ∧
    read_section ⟨chars "S", [], []⟩ (chars "k=\"ab\" ;c")
        [(chars "S", ⟨chars "S", []⟩)] =
      .error (.InvalidContinuation
        "no continuation char found after ending double quote") ∧
    read_section ⟨chars "S", [], []⟩ (chars "k=\"ab\"\\x")
        [(chars "S", ⟨chars "S", []⟩)] =
      .ok (⟨chars "S", chars "k", chars "ab"⟩, [(chars "S", ⟨chars "S", []⟩)]) ∧
    read_section ⟨chars "S", [], []⟩ (chars "k=\"é\"x")
        [(chars "S", ⟨chars "S", []⟩)] =
      .ok (⟨chars "S", [], []⟩,
        [(chars "S", ⟨chars "S",
          [InfEntry.KeyValue (chars "k") (some (InfValue.Raw (chars "é")))]⟩)]) :=
  ⟨⟨by decide, by decide⟩, by decide, by decide, by decide⟩

/-- C3 (amended): for a quoted value with a closing quote, let idx be
the BYTE offset of the first closing quote within the text after the
opening quote, so that idx + 1 is its byte offset in the value; the
parser probes the character at CHARACTER position idx + 2 of the value,
which is the character right after the closing quote exactly when the
quoted text is ASCII. If that position is past the end of the value, in
particular whenever the closing quote ends the value and whenever a
non-ASCII quoted interior pushes the probe past the end, it commits
KeyValue(key, Raw(text strictly between the quotes)) and clears the
continuation value; if the probed character is a backslash, whatever
follows it, it stores Pending(key, text between the quotes) without
appending the backslash; if it is a semicolon it commits; any other
probed character, including whitespace before a comment, fails with
InvalidContinuation. -/
theorem inf_c3_quoted_value_amended (sr : SectionReader) (secs : SecMap)
    (line k0 v0 : Str) (idx : Nat)
    (hsec : sr.last_section_name ≠ [])
    (hcom : startsWithChar (trim line) ';' = false)
    (hhdr : (startsWithChar (trim line) '[' && endsWithChar (trim line) ']') = false)
    (hsplit : splitOnceChar (trim line) '=' = some (k0, v0))
    (hq : startsWithChar (trim v0) '"' = true)
    (hfind : findCharByteIdx ((trim v0).drop 1) '"' = some idx) :
    ((trim v0).get? (idx + 2) = none →
      read_section sr line secs = .ok ({ sr with last_entry_value_contd := [] },
        pushEntry sr.last_section_name
          (.KeyValue (trim k0) (some (.Raw (byteSlice (trim v0) 1 (idx + 1))))) secs)) ∧
    ((trim v0).get? (idx + 2) = some '\\' →
      read_section sr line secs = .ok
        ({ sr with last_entry_key := trim k0, last_entry_value_contd := byteSlice (trim v0) 1 (idx + 1) },
          secs)) ∧
    ((trim v0).get? (idx + 2) = some ';' →
      read_section sr line secs = .ok ({ sr with last_entry_value_contd := [] },
        pushEntry sr.last_section_name
          (.KeyValue (trim k0) (some (.Raw (byteSlice (trim v0) 1 (idx + 1))))) secs)) ∧
    (∀ c, (trim v0).get? (idx + 2) = some c → c ≠ '\\' → c ≠ ';' →
      read_section sr line secs =
        .error (.InvalidContinuation
          "no continuation char found after ending double quote")) := by
  have hred : read_section sr line secs = read_quoted sr (trim k0) (trim v0) secs := by
    rw [read_section_entry_eq sr line secs hsec hcom hhdr]
    simp only [hsplit]
    rw [if_pos hq]
  refine ⟨?_, ?_, ?_, ?_⟩
  · intro hnone
    rw [hred]
    unfold read_quoted
    simp only [hfind]
    by_cases hg : utf8Len (trim v0) - 1 > idx + 1
    · rw [if_pos hg]
      have hidx : (trim v0).get? (idx + 1 + 1) = none := hnone
      simp only [hidx]
    · rw [if_neg hg]
  · intro hget
    have hlt : idx + 2 < (trim v0).length := get?_some_lt hget
    have hle := length_le_utf8Len (trim v0)
    rw [hred]
    unfold read_quoted
    simp only [hfind]
    rw [if_pos (by omega)]
    have hidx : (trim v0).get? (idx + 1 + 1) = some '\\' := hget
    simp only [hidx]
    rw [if_pos trivial]
  · intro hget
    have hlt : idx + 2 < (trim v0).length := get?_some_lt hget
    have hle := length_le_utf8Len (trim v0)
    rw [hred]
    unfold read_quoted
    simp only [hfind]
    rw [if_pos (by omega)]
    have hidx : (trim v0).get? (idx + 1 + 1) = some ';' := hget
    simp only [hidx]
    rw [if_neg (by decide), if_neg (by decide)]
  · intro c hget hc1 hc2
    have hlt : idx + 2 < (trim v0).length := get?_some_lt hget
    have hle := length_le_utf8Len (trim v0)
    rw [hred]
    unfold read_quoted
    simp only [hfind]
    rw [if_pos (by omega)]
    have hidx : (trim v0).get? (idx + 1 + 1) = some c := hget
    simp only [hidx]
    rw [if_neg hc1, if_pos hc2]

/-- Witness for C3 amended: key a with a quoted ASCII value xy followed
by a single backslash stores Pending(a, xy). -/
theorem inf_c3_witness :
    read_section ⟨chars "T", [], []⟩ (chars "a=\"xy\"\\")
        [(chars "T", ⟨chars "T", []⟩)] =
      .ok (⟨chars "T", chars "a", chars "xy"⟩, [(chars "T", ⟨chars "T", []⟩)]) :=
  (inf_c3_quoted_value_amended ⟨chars "T", [], []⟩
    [(chars "T", ⟨chars "T", []⟩)] (chars "a=\"xy\"\\") (chars "a") (chars "\"xy\"\\")
    2 (by decide) (by decide) (by decide) (by decide) (by decide)
    (by decide)).2.1 (by decide)

/-- C7: while a section is open and a continuation is pending, a bare
line commits KeyValue(key, partial concatenated with the trimmed line)
to the current section and clears the continuation slot; only one hop
is honored, so a second consecutive bare line is committed as a
standalone OnlyValue entry. -/
theorem inf_c7_single_hop_continuation (sr : SectionReader) (secs : SecMap)
    (sec : InfSection) (l1 l2 : Str)
    (hsec : sr.last_section_name ≠ [])
    (hcontd : sr.last_entry_value_contd ≠ [])
    (hget : mapGet sr.last_section_name secs = some sec)
    (hcom1 : startsWithChar (trim l1) ';' = false)
    (hhdr1 : (startsWithChar (trim l1) '[' && endsWithChar (trim l1) ']') = false)
    (hsplit1 : splitOnceChar (trim l1) '=' = none)
    (hcom2 : startsWithChar (trim l2) ';' = false)
    (hhdr2 : (startsWithChar (trim l2) '[' && endsWithChar (trim l2) ']') = false)
    (hsplit2 : splitOnceChar (trim l2) '=' = none) :
    ∃ srf secsf, run_lines sr secs [l1, l2] = .ok (srf, secsf) ∧
      srf.last_entry_value_contd = [] ∧
      mapGet sr.last_section_name secsf = some ⟨sec.name, sec.entries ++
        [InfEntry.KeyValue sr.last_entry_key
          (some (InfValue.Raw (sr.last_entry_value_contd ++ trim l1))),
         InfEntry.OnlyValue (InfValue.Raw (trim l2))]⟩ := by
  have h1 : read_section sr l1 secs =
      .ok ({ sr with last_entry_value_contd := [], last_entry_key := [] },
        pushEntry sr.last_section_name
          (.KeyValue sr.last_entry_key
            (some (.Raw (sr.last_entry_value_contd ++ trim l1)))) secs) := by
    rw [read_section_entry_eq sr l1 secs hsec hcom1 hhdr1]
    simp only [hsplit1]
    unfold read_bare
    rw [if_pos hcontd, trim_idem]
  have hsec2 : ({ sr with last_entry_value_contd := ([] : Str), last_entry_key := ([] : Str) } :
      SectionReader).last_section_name ≠ [] := hsec
  have h2 : read_section { sr with last_entry_value_contd := ([] : Str), last_entry_key := ([] : Str) } l2
        (pushEntry sr.last_section_name
          (.KeyValue sr.last_entry_key
            (some (.Raw (sr.last_entry_value_contd ++ trim l1)))) secs) =
      .ok ({ sr with last_entry_value_contd := [], last_entry_key := [] },
        pushEntry sr.last_section_name (.OnlyValue (.Raw (trim l2)))
          (pushEntry sr.last_section_name
            (.KeyValue sr.last_entry_key
              (some (.Raw (sr.last_entry_value_contd ++ trim l1)))) secs)) := by
    rw [read_section_entry_eq _ l2 _ hsec2 hcom2 hhdr2]
    simp only [hsplit2]
    unfold read_bare
    rw [if_neg (by simp), trim_idem]
  refine ⟨{ sr with last_entry_value_contd := [], last_entry_key := [] },
    pushEntry sr.last_section_name (.OnlyValue (.Raw (trim l2)))
      (pushEntry sr.last_section_name
        (.KeyValue sr.last_entry_key
          (some (.Raw (sr.last_entry_value_contd ++ trim l1)))) secs),
    ?_, rfl, ?_⟩
  · simp only [run_lines, h1, h2]
  · rw [mapGet_pushEntry_self, mapGet_pushEntry_self, hget]
    simp [List.append_assoc]

/-- Witness for C7 at a section W with pending key p and partial q,
followed by the bare lines r and s. -/
theorem inf_c7_witness :
    ∃ srf secsf, run_lines ⟨chars "W", chars "p", chars "q"⟩
        [(chars "W", ⟨chars "W", []⟩)] [chars " r ", chars "s"] = .ok (srf, secsf) ∧
      srf.last_entry_value_contd = [] ∧
      mapGet (chars "W") secsf = some ⟨chars "W", [] ++
        [InfEntry.KeyValue (chars "p")
          (some (InfValue.Raw (chars "q" ++ trim (chars " r ")))),
         InfEntry.OnlyValue (InfValue.Raw (trim (chars "s")))]⟩ :=
  inf_c7_single_hop_continuation ⟨chars "W", chars "p", chars "q"⟩
    [(chars "W", ⟨chars "W", []⟩)] ⟨chars "W", []⟩ (chars " r ") (chars "s")
    (by decide) (by decide) (by decide) (by decide) (by decide) (by decide)
    (by decide) (by decide) (by decide)

end InfRs
